import Mathlib

/-!
Verification of the spur feed tools (src/parallel.py, src/serial.py).

Shallow embedding:
* a decoded text line is `Line := List Char`; a batch is `Batch := List Line`;
* `strip` models Python `str.strip()` (ASCII whitespace set of `str.isspace`);
* `JsonModel.json_valid` models the external `json.loads` interface: it is a
  fuel-based validator for the JSON grammar (plus the `NaN`/`Infinity`
  extensions Python accepts); `process_batch` and `serial_loop` only observe
  whether a line parses, so the pipeline itself is parametrised over an
  arbitrary `parse : Line → Bool`;
* printed output is modelled as a list of `Event`s: the token diagnostic, the
  transport diagnostic (carrying the HTTP status code), the final
  elapsed-time/total-lines summary (carrying the total; elapsed wall time is
  not modelled), and `crash` for an exception propagating out of `main`;
* the nondeterministic completion order of `concurrent.futures.as_completed`
  is an explicit schedule `sched : List Nat`: at each harvest point, the
  worker that completes first is the one at index `sched.headD 0 % |outstanding|`
  of the outstanding list, so every completion order is some schedule.
-/

namespace FeedTools

abbrev Line : Type := List Char
abbrev Batch : Type := List Line

/-! ### Model of the external JSON parser (`json.loads`) -/

namespace JsonModel

/-- Modelled from the spec: the external parse step, "parses each line as a
JSON object" / "a line is not valid structured data".  `json.loads` is stdlib
code outside this repository, so its success predicate is modelled as a
validator for the JSON grammar (with Python's `NaN`/`Infinity` extensions).
JSON whitespace characters. -/
def isJsonWs (c : Char) : Bool :=
  c == ' ' || c == '\t' || c == '\n' || c == '\r'

/-- Drop leading JSON whitespace. -/
def skipWs : List Char → List Char
  | [] => []
  | c :: cs => if isJsonWs c then skipWs cs else c :: cs

/-- Hexadecimal digit test, for `\uXXXX` escapes. -/
def isHexDig (c : Char) : Bool :=
  c.isDigit || ('a' ≤ c && c ≤ 'f') || ('A' ≤ c && c ≤ 'F')

/-- Consume the remainder of a JSON string after the opening quote. -/
def parseStringRest : Nat → List Char → Option (List Char)
  | _, [] => none
  | 0, _ :: _ => none
  | fuel + 1, c :: cs =>
    if c == '"' then some cs
    else if c == '\\' then
      match cs with
      | [] => none
      | e :: cs2 =>
        if e == 'u' then
          match cs2 with
          | a :: b :: c2 :: d :: cs3 =>
            if isHexDig a && isHexDig b && isHexDig c2 && isHexDig d then
              parseStringRest fuel cs3
            else none
          | _ => none
        else if e == '"' || e == '\\' || e == '/' || e == 'b' || e == 'f' ||
                e == 'n' || e == 'r' || e == 't' then
          parseStringRest fuel cs2
        else none
    else if c.val < 0x20 then none
    else parseStringRest fuel cs

/-- Count and drop a run of leading decimal digits. -/
def digitSpan : List Char → Nat × List Char
  | [] => (0, [])
  | c :: cs =>
    if c.isDigit then
      let r := digitSpan cs
      (r.1 + 1, r.2)
    else (0, c :: cs)

/-- The integer part of a JSON number: `0`, or a nonzero digit then digits. -/
def parseIntPart : List Char → Option (List Char)
  | [] => none
  | c :: cs =>
    if c == '0' then some cs
    else if c.isDigit then some (digitSpan cs).2
    else none

/-- The optional fraction part of a JSON number. -/
def parseFracPart : List Char → Option (List Char)
  | '.' :: cs =>
    let r := digitSpan cs
    if r.1 == 0 then none else some r.2
  | s => some s

/-- The optional exponent part of a JSON number. -/
def parseExpPart : List Char → Option (List Char)
  | [] => some []
  | e :: cs =>
    if e == 'e' || e == 'E' then
      let cs2 := match cs with
        | c :: r => if c == '+' || c == '-' then r else c :: r
        | [] => []
      let r := digitSpan cs2
      if r.1 == 0 then none else some r.2
    else some (e :: cs)

/-- Match a literal word character by character. -/
def parseLit : List Char → List Char → Option (List Char)
  | [], s => some s
  | _ :: _, [] => none
  | c :: cs, x :: xs => if x == c then parseLit cs xs else none

/-- What the recursive-descent validator is currently parsing: a value, the
inside of an array (just after `[`), the element list of an array, the inside
of an object (just after a brace), or the member list of an object. -/
inductive PMode : Type
  | value
  | arrRest
  | elems
  | objRest
  | members
deriving DecidableEq

/-- One fuel-indexed step of the JSON validator. -/
def parseStep : Nat → PMode → List Char → Option (List Char)
  | 0, _, _ => none
  | fuel + 1, m, s =>
    match m with
    | .value =>
      match skipWs s with
      | [] => none
      | c :: cs =>
        if c == '{' then parseStep fuel .objRest cs
        else if c == '[' then parseStep fuel .arrRest cs
        else if c == '"' then parseStringRest (cs.length + 1) cs
        else if c == 't' then parseLit ['r', 'u', 'e'] cs
        else if c == 'f' then parseLit ['a', 'l', 's', 'e'] cs
        else if c == 'n' then parseLit ['u', 'l', 'l'] cs
        else if c == 'N' then parseLit ['a', 'N'] cs
        else if c == 'I' then parseLit ['n', 'f', 'i', 'n', 'i', 't', 'y'] cs
        else if c == '-' then
          match cs with
          | 'I' :: cs2 => parseLit ['n', 'f', 'i', 'n', 'i', 't', 'y'] cs2
          | _ => (parseIntPart cs).bind fun r => (parseFracPart r).bind parseExpPart
        else if c.isDigit then
          (parseIntPart (c :: cs)).bind fun r => (parseFracPart r).bind parseExpPart
        else none
    | .arrRest =>
      match skipWs s with
      | ']' :: cs => some cs
      | _ => parseStep fuel .elems s
    | .elems =>
      (parseStep fuel .value s).bind fun r =>
        match skipWs r with
        | ',' :: cs => parseStep fuel .elems cs
        | ']' :: cs => some cs
        | _ => none
    | .objRest =>
      match skipWs s with
      | '}' :: cs => some cs
      | _ => parseStep fuel .members s
    | .members =>
      match skipWs s with
      | '"' :: cs =>
        (parseStringRest (cs.length + 1) cs).bind fun r =>
          match skipWs r with
          | ':' :: cs2 =>
            (parseStep fuel .value cs2).bind fun r2 =>
              match skipWs r2 with
              | ',' :: cs3 => parseStep fuel .members cs3
              | '}' :: cs3 => some cs3
              | _ => none
          | _ => none
      | _ => none

/-- Modelled from the spec: success of the external `json.loads` on one line —
the line is a single well-formed JSON document (with nothing but whitespace
after it).  The fuel `4 * s.length + 8` dominates the number of parser steps,
each of which consumes input or moves to a strictly smaller obligation. -/
def json_valid (s : List Char) : Bool :=
  match parseStep (4 * s.length + 8) .value s with
  | some r => (skipWs r).isEmpty
  | none => false

end JsonModel

/-! ### `line.decode().strip()` — Python `str.strip` on decoded text -/

/-- The ASCII whitespace characters stripped by Python `str.strip()`. -/
def isPyWs (c : Char) : Bool :=
  c == ' ' || c == '\t' || c == '\n' || c == '\r' || c == '\x0b' || c == '\x0c'

/-- Drop leading Python whitespace (`str.lstrip`). -/
def lstrip : List Char → List Char
  | [] => []
  | c :: cs => if isPyWs c then lstrip cs else c :: cs

/-- Drop trailing Python whitespace (`str.rstrip`). -/
def rstrip (s : List Char) : List Char :=
  (lstrip s.reverse).reverse

/-- Python `str.strip()`: drop leading and trailing whitespace. -/
def strip (s : List Char) : List Char :=
  lstrip (rstrip s)

/-! ### `process_batch` (src/parallel.py lines 36-53) -/

/-- The loop body of `process_batch`: `for line in batch: json.loads(line)`.
Returns `false` as soon as one line fails to parse (`json.loads` raises). -/
def process_batch_loop (parse : Line → Bool) : List Line → Bool
  | [] => true
  | l :: ls => if parse l then process_batch_loop parse ls else false

/-- `process_batch(batch)`: parse every line; on success return `len(batch)`,
on the first parse failure the exception propagates (`none`). -/
def process_batch (parse : Line → Bool) (batch : Batch) : Option Nat :=
  if process_batch_loop parse batch then some batch.length else none

/-- Instrumentation of the same loop: the list of lines on which
`json.loads` is actually called before `process_batch` returns or raises. -/
def process_batch_attempts (parse : Line → Bool) : List Line → List Line
  | [] => []
  | l :: ls => if parse l then l :: process_batch_attempts parse ls else [l]

/-! ### `stream_and_process` (src/parallel.py lines 56-90) -/

/-- The batching loop of `stream_and_process` (lines 82-90): accumulate lines,
emit a batch whenever `len(batch) >= batch_size`, and emit the final partial
batch if non-empty.  `batch_size` is a Python `int`, so it is an `Int` here
(the comparison is `len(batch) >= batch_size`). -/
def batcher_loop (batch_size : Int) (acc : List Line) : List Line → List Batch
  | [] => if acc.isEmpty then [] else [acc]
  | l :: ls =>
    let acc2 := acc ++ [l]
    if batch_size ≤ (acc2.length : Int) then acc2 :: batcher_loop batch_size [] ls
    else batcher_loop batch_size acc2 ls

/-- Printed output events of a run. `summary n` stands for the final pair of
prints (elapsed time, which is wall clock and not modelled, and
`Total lines processed: n`); `crash` stands for an uncaught exception
propagating out of `main` (traceback, no summary). -/
inductive Event : Type
  | tokenError
  | transportError (status : Nat)
  | summary (total : Nat)
  | crash
deriving DecidableEq

/-- `stream_and_process(url, token, batch_size)`: on a non-200 status print a
diagnostic carrying the status code and yield nothing; otherwise decode and
strip each raw line of the response body and yield batches.  The first
component is the events the generator prints, the second the yielded batches. -/
def stream_and_process (status : Nat) (batch_size : Int) (raw : List Line) :
    List Event × List Batch :=
  if status ≠ 200 then ([Event.transportError status], [])
  else ([], batcher_loop batch_size [] (raw.map strip))

/-! ### The bounded scheduler loop of parallel `main` (lines 130-153) -/

/-- Outcome of the scheduler loop: `result = some total` when every harvested
`future.result()` returned normally, `none` when one raised (the exception
propagates and aborts aggregation); `trace` samples the size of the
outstanding-futures set after every mutation of the set. -/
structure RunOut : Type where
  result : Option Nat
  trace : List Nat
deriving DecidableEq

/-- The final drain (lines 147-149): `for future in as_completed(futures):
total_lines_processed += future.result()`.  The completion schedule picks
which outstanding future finishes first; `fuel` is an upper bound on the
number of iterations (the loop runs exactly `|out|` times) so the recursion
is structural. -/
def drainLoop (parse : Line → Bool) : Nat → List Nat → List Batch → Nat → RunOut
  | _, _, [], total => ⟨some total, []⟩
  | 0, _, _ :: _, _ => ⟨none, []⟩
  | fuel + 1, sched, c :: rest, total =>
    let out := c :: rest
    let i := sched.headD 0 % out.length
    match process_batch parse (out.getD i []) with
    | none => ⟨none, []⟩
    | some r =>
      let o := drainLoop parse fuel sched.tail (out.eraseIdx i) (total + r)
      ⟨o.result, (out.eraseIdx i).length :: o.trace⟩

/-- The submission loop of parallel `main` (lines 136-145) followed by the
final drain: for each batch, if `len(futures) >= max_workers`, harvest exactly
one completed future (adding its result to the running total and removing it
from the set) and then submit the batch.  If the set is empty,
`as_completed(futures)` yields nothing and the harvest loop body is skipped. -/
def schedLoop (parse : Line → Bool) (mw : Nat) (sched : List Nat)
    (out : List Batch) (total : Nat) : List Batch → RunOut
  | [] => drainLoop parse out.length sched out total
  | b :: bs =>
    if mw ≤ out.length then
      match out with
      | [] =>
        let o := schedLoop parse mw sched (out ++ [b]) total bs
        ⟨o.result, (out ++ [b]).length :: o.trace⟩
      | _ :: _ =>
        let i := sched.headD 0 % out.length
        match process_batch parse (out.getD i []) with
        | none => ⟨none, [out.length]⟩
        | some r =>
          let out2 := out.eraseIdx i ++ [b]
          let o := schedLoop parse mw sched.tail out2 (total + r) bs
          ⟨o.result, (out.eraseIdx i).length :: out2.length :: o.trace⟩
    else
      let o := schedLoop parse mw sched (out ++ [b]) total bs
      ⟨o.result, (out ++ [b]).length :: o.trace⟩

/-- Default batch size of `stream_and_process` (line 56). -/
def default_batch_size : Int := 100000

/-- `max_workers = 4` (line 130). -/
def max_workers : Nat := 4

/-- `main()` of src/parallel.py: check the token, stream batches, run the
bounded scheduler loop, then print the summary; an exception raised by a
harvested future propagates (`crash`) and the summary is never printed. -/
def parallel_main (parse : Line → Bool) (token : Line) (status : Nat)
    (raw : List Line) (sched : List Nat) : List Event :=
  if token = [] then [Event.tokenError]
  else
    let sp := stream_and_process status default_batch_size raw
    match (schedLoop parse max_workers sched [] 0 sp.2).result with
    | some total => sp.1 ++ [Event.summary total]
    | none => sp.1 ++ [Event.crash]

/-! ### src/serial.py -/

/-- The line loop of serial `main` (lines 92-95): process each line with
`process_line` (which calls `json.loads` and raises on failure) and count it;
the count survives only if every line parses. -/
def serial_loop (parse : Line → Bool) : List Line → Option Nat
  | [] => some 0
  | l :: ls => if parse l then (serial_loop parse ls).map (· + 1) else none

/-- `main()` of src/serial.py: check the token; on status 200 run the line
loop (an unparseable line makes `process_line` raise and the exception
propagates, so no summary is printed); on any other status print the
diagnostic — and then, falling out of the `if`/`else`, the script still
prints the summary with `line_count = 0`. -/
def serial_main (parse : Line → Bool) (token : Line) (status : Nat)
    (raw : List Line) : List Event :=
  if token = [] then [Event.tokenError]
  else if status = 200 then
    match serial_loop parse (raw.map strip) with
    | some n => [Event.summary n]
    | none => [Event.crash]
  else [Event.transportError status, Event.summary 0]

/-! ### Concrete sample inputs used by witnesses -/

/-- A sample valid JSON line: the text of the record `{"a":1}`. -/
def lineA : Line := ['{', '"', 'a', '"', ':', '1', '}']

/-- A second sample valid JSON line: the literal `null`. -/
def lineB : Line := ['n', 'u', 'l', 'l']

/-- A malformed line: `{x` is not valid JSON. -/
def lineBad : Line := ['{', 'x']

/-- A sample non-empty API token. -/
def tok : Line := ['t']

/-! ### General list lemmas -/

/-- The element read by `getD` at an in-range index is a member of the list. -/
lemma getD_mem_self {α : Type} (d : α) :
    ∀ (l : List α) (i : Nat), i < l.length → l.getD i d ∈ l
  | a :: t, 0, _ => by simp
  | a :: t, i + 1, h => by
    simp only [List.getD_cons_succ, List.mem_cons]
    exact Or.inr (getD_mem_self d t i (by simpa using h))

/-- Erasing an in-range index shortens the list by exactly one. -/
lemma length_eraseIdx_succ {α : Type} :
    ∀ (l : List α) (i : Nat), i < l.length → (l.eraseIdx i).length + 1 = l.length
  | a :: t, 0, _ => by simp
  | a :: t, i + 1, h => by
    simp only [List.eraseIdx_cons_succ, List.length_cons]
    exact congrArg (· + 1) (length_eraseIdx_succ t i (by simpa using h))

/-- A member distinct from the erased element survives `eraseIdx`. -/
lemma mem_eraseIdx_of_ne {α : Type} (d : α) :
    ∀ (l : List α) (i : Nat) (x : α), x ∈ l → x ≠ l.getD i d → x ∈ l.eraseIdx i
  | [], _, x, hx, _ => absurd hx (by simp)
  | a :: t, 0, x, hx, hne => by
    rcases List.mem_cons.mp hx with rfl | h
    · exact (hne (by simp)).elim
    · simpa using h
  | a :: t, i + 1, x, hx, hne => by
    rcases List.mem_cons.mp hx with rfl | h
    · simp
    · simp only [List.eraseIdx_cons_succ, List.mem_cons]
      exact Or.inr (mem_eraseIdx_of_ne d t i x h (by simpa using hne))

/-- Members of `eraseIdx` are members of the original list. -/
lemma mem_of_mem_eraseIdx' {α : Type} :
    ∀ (l : List α) (i : Nat) (x : α), x ∈ l.eraseIdx i → x ∈ l
  | [], _, x, hx => by simpa using hx
  | a :: t, 0, x, hx => by simp_all
  | a :: t, i + 1, x, hx => by
    simp only [List.eraseIdx_cons_succ, List.mem_cons] at hx
    rcases hx with rfl | h
    · simp
    · exact List.mem_cons.mpr (Or.inr (mem_of_mem_eraseIdx' t i x h))

/-- Erasing an in-range batch redistributes the sum of batch lengths. -/
lemma sum_len_eraseIdx :
    ∀ (l : List Batch) (i : Nat), i < l.length →
      (l.getD i []).length + ((l.eraseIdx i).map List.length).sum =
        (l.map List.length).sum
  | b :: t, 0, _ => by simp
  | b :: t, i + 1, h => by
    have ih := sum_len_eraseIdx t i (by simpa using h)
    simp only [List.getD_cons_succ, List.eraseIdx_cons_succ, List.map_cons, List.sum_cons]
    omega

/-! ### Lemmas about `strip` -/

/-- `lstrip` of an all-whitespace string is empty. -/
lemma lstrip_eq_nil_of_all_ws :
    ∀ s : List Char, (∀ c ∈ s, isPyWs c = true) → lstrip s = []
  | [], _ => rfl
  | c :: cs, h => by
    simp only [lstrip, h c (by simp), if_true]
    exact lstrip_eq_nil_of_all_ws cs fun x hx => h x (by simp [hx])

/-- `strip` of an all-whitespace string is empty. -/
lemma strip_eq_nil_of_all_ws (s : List Char) (h : ∀ c ∈ s, isPyWs c = true) :
    strip s = [] := by
  have h1 : lstrip s.reverse = [] :=
    lstrip_eq_nil_of_all_ws _ fun c hc => h c (List.mem_reverse.mp hc)
  simp [strip, rstrip, h1, lstrip]

/-! ### Lemmas about `process_batch` and the serial loop -/

/-- The `process_batch` loop succeeds exactly when every line parses. -/
lemma process_batch_loop_eq_true_iff (parse : Line → Bool) :
    ∀ b : List Line, process_batch_loop parse b = true ↔ ∀ l ∈ b, parse l = true
  | [] => by simp [process_batch_loop]
  | l :: ls => by
    by_cases h : parse l = true
    · simp [process_batch_loop, h, process_batch_loop_eq_true_iff parse ls]
    · simp only [process_batch_loop, h, if_false]
      constructor
      · intro hf; exact absurd hf (by simp)
      · intro hall; exact absurd (hall l (by simp)) h

/-- A single unparseable member makes the `process_batch` loop fail. -/
lemma process_batch_loop_eq_false_of_mem (parse : Line → Bool) (b : List Line)
    (x : Line) (hx : x ∈ b) (hf : parse x = false) :
    process_batch_loop parse b = false := by
  rcases h : process_batch_loop parse b with _ | _
  · rfl
  · exact absurd ((process_batch_loop_eq_true_iff parse b).mp h x hx) (by simp [hf])

/-- `process_batch` fails exactly when its loop fails. -/
lemma process_batch_eq_none_iff (parse : Line → Bool) (b : Batch) :
    process_batch parse b = none ↔ process_batch_loop parse b = false := by
  by_cases h : process_batch_loop parse b <;> simp [process_batch, h]

/-- When every line parses, the loop attempts every line. -/
lemma process_batch_attempts_of_all (parse : Line → Bool) :
    ∀ b : List Line, (∀ l ∈ b, parse l = true) → process_batch_attempts parse b = b
  | [], _ => rfl
  | l :: ls, h => by
    simp only [process_batch_attempts, h l (by simp), if_true, List.cons.injEq, true_and]
    exact process_batch_attempts_of_all parse ls fun x hx => h x (by simp [hx])

/-- When some line fails, the loop attempts exactly the lines up to and
including the first failing one. -/
lemma process_batch_attempts_of_fail (parse : Line → Bool) :
    ∀ b : List Line, (∃ l ∈ b, parse l = false) →
      process_batch_attempts parse b = b.take ((b.takeWhile parse).length + 1)
  | [], h => by simpa using h
  | l :: ls, h => by
    by_cases hl : parse l = true
    · have : ∃ x ∈ ls, parse x = false := by
        rcases h with ⟨x, hx, hfx⟩
        rcases List.mem_cons.mp hx with rfl | hmem
        · exact absurd hl (by simp [hfx])
        · exact ⟨x, hmem, hfx⟩
      simp [process_batch_attempts, hl, List.takeWhile_cons, List.take_succ_cons,
        process_batch_attempts_of_fail parse ls this]
    · simp only [Bool.not_eq_true] at hl
      simp [process_batch_attempts, hl, List.takeWhile_cons]

/-- A single unparseable line aborts the serial loop. -/
lemma serial_loop_eq_none_of_mem (parse : Line → Bool) :
    ∀ (ls : List Line) (x : Line), x ∈ ls → parse x = false →
      serial_loop parse ls = none
  | [], x, hx, _ => absurd hx (by simp)
  | l :: ls, x, hx, hf => by
    rcases List.mem_cons.mp hx with rfl | hmem
    · simp [serial_loop, hf]
    · by_cases h : parse l = true
      · simp [serial_loop, h, serial_loop_eq_none_of_mem parse ls x hmem hf]
      · simp only [Bool.not_eq_true] at h
        simp [serial_loop, h]

/-! ### Lemmas about the batcher -/

/-- The concatenation of the batches is the accumulator followed by the
remaining lines: no line is duplicated or dropped, order preserved. -/
lemma batcher_loop_flatten (bsz : Int) :
    ∀ (ls : List Line) (acc : List Line),
      (batcher_loop bsz acc ls).flatten = acc ++ ls
  | [], acc => by
    by_cases h : acc.isEmpty
    · simp_all [batcher_loop]
    · simp [batcher_loop, h]
  | l :: ls, acc => by
    simp only [batcher_loop]
    by_cases h : bsz ≤ ((acc ++ [l]).length : Int)
    · rw [if_pos h]
      simp [batcher_loop_flatten bsz ls []]
    · rw [if_neg h]
      simpa using batcher_loop_flatten bsz ls (acc ++ [l])

/-- No emitted batch is empty. -/
lemma batcher_loop_ne_nil (bsz : Int) :
    ∀ (ls : List Line) (acc : List Line), ∀ b ∈ batcher_loop bsz acc ls, b ≠ []
  | [], acc => by
    simp only [batcher_loop]
    by_cases h : acc.isEmpty = true
    · rw [if_pos h]
      simp
    · rw [if_neg h]
      intro b hb
      rw [List.mem_singleton] at hb
      subst hb
      simpa [List.isEmpty_iff] using h
  | l :: ls, acc => by
    simp only [batcher_loop]
    by_cases h : bsz ≤ ((acc ++ [l]).length : Int)
    · rw [if_pos h]
      intro b hb
      rcases List.mem_cons.mp hb with rfl | hb2
      · simp
      · exact batcher_loop_ne_nil bsz ls [] b hb2
    · rw [if_neg h]
      exact batcher_loop_ne_nil bsz ls (acc ++ [l])

/-- With a strictly short accumulator, every emitted batch except possibly the
last has exactly `bsz` lines, and every batch has at most `bsz` lines. -/
lemma batcher_loop_sizes (bsz : Int) :
    ∀ (ls : List Line) (acc : List Line), (acc.length : Int) < bsz →
      (∀ b ∈ (batcher_loop bsz acc ls).dropLast, (b.length : Int) = bsz) ∧
        ∀ b ∈ batcher_loop bsz acc ls, (b.length : Int) ≤ bsz
  | [], acc, hacc => by
    simp only [batcher_loop]
    by_cases h : acc.isEmpty = true
    · rw [if_pos h]; simp
    · rw [if_neg h]
      refine ⟨by simp, ?_⟩
      intro b hb
      rw [List.mem_singleton] at hb
      subst hb
      exact le_of_lt hacc
  | l :: ls, acc, hacc => by
    simp only [batcher_loop]
    by_cases h : bsz ≤ ((acc ++ [l]).length : Int)
    · rw [if_pos h]
      have hfull : (((acc ++ [l]).length : Nat) : Int) = bsz := by
        have h2 := h
        simp only [List.length_append, List.length_cons, List.length_nil] at h2 ⊢
        push_cast at h2 ⊢
        omega
      have hrest := batcher_loop_sizes bsz ls [] (by simpa using lt_of_le_of_lt (by simp) hacc)
      constructor
      · intro b hb
        rcases hr : batcher_loop bsz [] ls with _ | ⟨r, rs⟩
        · simp [hr] at hb
        · rw [hr, List.dropLast_cons₂] at hb
          rcases List.mem_cons.mp hb with rfl | hb2
          · exact hfull
          · exact hrest.1 b (by rw [hr]; exact hb2)
      · intro b hb
        rcases List.mem_cons.mp hb with rfl | hb2
        · exact le_of_eq hfull
        · exact hrest.2 b hb2
    · rw [if_neg h]
      exact batcher_loop_sizes bsz ls (acc ++ [l]) (lt_of_not_le h)
  termination_by ls => ls.length

/-- When the remaining lines complete the accumulator to exactly `bsz`
characters of batch, a single full batch is emitted. -/
lemma batcher_loop_exact (bsz : Int) :
    ∀ (ls : List Line) (acc : List Line), ls ≠ [] →
      ((acc.length : Int) + (ls.length : Int) = bsz) →
      batcher_loop bsz acc ls = [acc ++ ls]
  | [], _, hne, _ => absurd rfl hne
  | l :: ls, acc, _, hlen => by
    simp only [batcher_loop]
    rcases ls with _ | ⟨l2, ls2⟩
    · have h : bsz ≤ ((acc ++ [l]).length : Int) := by
        simp only [List.length_append, List.length_cons, List.length_nil]
        push_cast
        simp at hlen
        omega
      rw [if_pos h]
      simp [batcher_loop]
    · have h : ¬bsz ≤ ((acc ++ [l]).length : Int) := by
        simp only [List.length_append, List.length_cons, List.length_nil]
        simp only [List.length_cons] at hlen
        push_cast
        push_cast at hlen
        omega
      rw [if_neg h]
      rw [batcher_loop_exact bsz (l2 :: ls2) (acc ++ [l]) (by simp) (by
        simp only [List.length_append, List.length_cons, List.length_nil]
        simp only [List.length_cons] at hlen
        push_cast
        push_cast at hlen
        omega)]
      simp

/-- With a non-positive batch size the emission test fires after every single
append, so every batch is a singleton. -/
lemma batcher_loop_nonpos (bsz : Int) (hbs : bsz ≤ 0) :
    ∀ ls : List Line, batcher_loop bsz [] ls = ls.map (fun l => [l])
  | [] => rfl
  | l :: ls => by
    simp only [batcher_loop]
    rw [if_pos (by simp; omega)]
    simp [batcher_loop_nonpos bsz hbs ls]

/-! ### Lemmas about the scheduler loop -/

/-- Unfolding of one drain iteration on a non-empty outstanding set. -/
lemma drainLoop_cons (parse : Line → Bool) (fuel : Nat) (sched : List Nat)
    (c : Batch) (rest : List Batch) (total : Nat) :
    drainLoop parse (fuel + 1) sched (c :: rest) total =
      match process_batch parse
          ((c :: rest).getD (sched.headD 0 % (c :: rest).length) []) with
      | none => ⟨none, []⟩
      | some r =>
        let o := drainLoop parse fuel sched.tail
          ((c :: rest).eraseIdx (sched.headD 0 % (c :: rest).length)) (total + r)
        ⟨o.result,
          ((c :: rest).eraseIdx (sched.headD 0 % (c :: rest).length)).length ::
            o.trace⟩ := rfl

/-- When every outstanding batch parses, the final drain harvests each one
once and adds exactly its length to the total, for any completion schedule. -/
lemma drainLoop_result_of_all (parse : Line → Bool) :
    ∀ (fuel : Nat) (out : List Batch) (sched : List Nat) (total : Nat),
      out.length ≤ fuel →
      (∀ b ∈ out, process_batch_loop parse b = true) →
      (drainLoop parse fuel sched out total).result =
        some (total + (out.map List.length).sum)
  | fuel, [], sched, total, _, _ => by cases fuel <;> simp [drainLoop]
  | 0, c :: rest, _, _, hf, _ => by simp at hf
  | fuel + 1, c :: rest, sched, total, hf, hall => by
    have hlen : 0 < (c :: rest).length := by simp
    have hi : sched.headD 0 % (c :: rest).length < (c :: rest).length :=
      Nat.mod_lt _ hlen
    have hmem := getD_mem_self [] (c :: rest) _ hi
    have hpb : process_batch parse ((c :: rest).getD (sched.headD 0 % (c :: rest).length) []) =
        some ((c :: rest).getD (sched.headD 0 % (c :: rest).length) []).length := by
      unfold process_batch
      rw [if_pos (hall _ hmem)]
    have herase := length_eraseIdx_succ (c :: rest) _ hi
    have hrec := drainLoop_result_of_all parse fuel
      ((c :: rest).eraseIdx (sched.headD 0 % (c :: rest).length)) sched.tail
      (total + ((c :: rest).getD (sched.headD 0 % (c :: rest).length) []).length)
      (by omega)
      (fun b hb => hall b (mem_of_mem_eraseIdx' _ _ b hb))
    have hsum := sum_len_eraseIdx (c :: rest) _ hi
    rw [drainLoop_cons, hpb]
    simp only []
    rw [hrec]
    congr 1
    omega

/-- If some outstanding batch fails to parse, the drain aborts: the failing
`future.result()` re-raises, whichever schedule completes first. -/
lemma drainLoop_result_none_of_mem (parse : Line → Bool) :
    ∀ (fuel : Nat) (out : List Batch) (sched : List Nat) (total : Nat) (x : Batch),
      out.length ≤ fuel → x ∈ out → process_batch_loop parse x = false →
      (drainLoop parse fuel sched out total).result = none
  | _, [], _, _, x, _, hx, _ => absurd hx (by simp)
  | 0, c :: rest, _, _, _, hf, _, _ => by simp at hf
  | fuel + 1, c :: rest, sched, total, x, hf, hx, hfail => by
    have hlen : 0 < (c :: rest).length := by simp
    have hi : sched.headD 0 % (c :: rest).length < (c :: rest).length :=
      Nat.mod_lt _ hlen
    rcases hpl : process_batch_loop parse
        ((c :: rest).getD (sched.headD 0 % (c :: rest).length) []) with _ | _
    · rw [drainLoop_cons]
      rw [show process_batch parse
          ((c :: rest).getD (sched.headD 0 % (c :: rest).length) []) = none by
        unfold process_batch
        rw [if_neg (by rw [hpl]; exact Bool.false_ne_true)]]
    · have hne : x ≠ (c :: rest).getD (sched.headD 0 % (c :: rest).length) [] := by
        intro hfe
        rw [hfe, hpl] at hfail
        simp at hfail
      have herase := length_eraseIdx_succ (c :: rest) _ hi
      have hrec := drainLoop_result_none_of_mem parse fuel
        ((c :: rest).eraseIdx (sched.headD 0 % (c :: rest).length)) sched.tail
        (total + ((c :: rest).getD (sched.headD 0 % (c :: rest).length) []).length) x
        (by omega)
        (mem_eraseIdx_of_ne [] (c :: rest) _ x hx hne) hfail
      rw [drainLoop_cons]
      rw [show process_batch parse
          ((c :: rest).getD (sched.headD 0 % (c :: rest).length) []) =
          some ((c :: rest).getD (sched.headD 0 % (c :: rest).length) []).length by
        unfold process_batch
        rw [if_pos hpl]]
      simpa using hrec

/-- Every outstanding-set size sampled during the drain is strictly below the
size the set had when the drain began. -/
lemma drainLoop_trace_lt (parse : Line → Bool) :
    ∀ (fuel : Nat) (out : List Batch) (sched : List Nat) (total : Nat),
      ∀ n ∈ (drainLoop parse fuel sched out total).trace, n < out.length
  | fuel, [], sched, total => by cases fuel <;> simp [drainLoop]
  | 0, c :: rest, _, _ => by simp [drainLoop]
  | fuel + 1, c :: rest, sched, total => by
    have hlen : 0 < (c :: rest).length := by simp
    have hi : sched.headD 0 % (c :: rest).length < (c :: rest).length :=
      Nat.mod_lt _ hlen
    have herase := length_eraseIdx_succ (c :: rest) _ hi
    rcases hpl : process_batch_loop parse
        ((c :: rest).getD (sched.headD 0 % (c :: rest).length) []) with _ | _
    · rw [drainLoop_cons]
      rw [show process_batch parse
          ((c :: rest).getD (sched.headD 0 % (c :: rest).length) []) = none by
        unfold process_batch
        rw [if_neg (by rw [hpl]; exact Bool.false_ne_true)]]
      simp
    · intro n hn
      rw [drainLoop_cons] at hn
      rw [show process_batch parse
          ((c :: rest).getD (sched.headD 0 % (c :: rest).length) []) =
          some ((c :: rest).getD (sched.headD 0 % (c :: rest).length) []).length by
        unfold process_batch
        rw [if_pos hpl]] at hn
      simp only [List.mem_cons] at hn
      rcases hn with rfl | hn
      · omega
      · have := drainLoop_trace_lt parse fuel
          ((c :: rest).eraseIdx (sched.headD 0 % (c :: rest).length)) sched.tail
          (total + ((c :: rest).getD (sched.headD 0 % (c :: rest).length) []).length) n hn
        omega

/-- Unfolding of the scheduler loop on an exhausted batcher. -/
lemma schedLoop_nil (parse : Line → Bool) (mw : Nat) (sched : List Nat)
    (out : List Batch) (total : Nat) :
    schedLoop parse mw sched out total [] =
      drainLoop parse out.length sched out total := rfl

/-- Unfolding of one scheduler iteration. -/
lemma schedLoop_cons (parse : Line → Bool) (mw : Nat) (sched : List Nat)
    (out : List Batch) (total : Nat) (b : Batch) (bs : List Batch) :
    schedLoop parse mw sched out total (b :: bs) =
      if mw ≤ out.length then
        match out with
        | [] =>
          ⟨(schedLoop parse mw sched (out ++ [b]) total bs).result,
            (out ++ [b]).length ::
              (schedLoop parse mw sched (out ++ [b]) total bs).trace⟩
        | _ :: _ =>
          match process_batch parse (out.getD (sched.headD 0 % out.length) []) with
          | none => ⟨none, [out.length]⟩
          | some r =>
            ⟨(schedLoop parse mw sched.tail
                (out.eraseIdx (sched.headD 0 % out.length) ++ [b]) (total + r)
                bs).result,
              (out.eraseIdx (sched.headD 0 % out.length)).length ::
                (out.eraseIdx (sched.headD 0 % out.length) ++ [b]).length ::
                (schedLoop parse mw sched.tail
                  (out.eraseIdx (sched.headD 0 % out.length) ++ [b]) (total + r)
                  bs).trace⟩
      else
        ⟨(schedLoop parse mw sched (out ++ [b]) total bs).result,
          (out ++ [b]).length ::
            (schedLoop parse mw sched (out ++ [b]) total bs).trace⟩ := rfl

/-- When every batch (outstanding and still to come) parses, the scheduler
loop harvests each exactly once, so the final total is the sum of all batch
lengths — for any completion schedule. -/
lemma schedLoop_result_of_all (parse : Line → Bool) (mw : Nat) :
    ∀ (bs : List Batch) (sched : List Nat) (out : List Batch) (total : Nat),
      (∀ b ∈ out, process_batch_loop parse b = true) →
      (∀ b ∈ bs, process_batch_loop parse b = true) →
      (schedLoop parse mw sched out total bs).result =
        some (total + (out.map List.length).sum + (bs.map List.length).sum)
  | [], sched, out, total, hout, _ => by
    rw [schedLoop_nil, drainLoop_result_of_all parse out.length out sched total le_rfl hout]
    simp
  | b :: bs, sched, out, total, hout, hbs => by
    have hb : process_batch_loop parse b = true := hbs b (by simp)
    have hbs2 : ∀ x ∈ bs, process_batch_loop parse x = true :=
      fun x hx => hbs x (by simp [hx])
    have hsubmit :
        (schedLoop parse mw sched (out ++ [b]) total bs).result =
          some (total + (out.map List.length).sum + b.length +
            (bs.map List.length).sum) := by
      rw [schedLoop_result_of_all parse mw bs sched (out ++ [b]) total
        (by
          intro x hx
          rcases List.mem_append.mp hx with hx2 | hx2
          · exact hout x hx2
          · rw [List.mem_singleton.mp hx2]; exact hb)
        hbs2]
      congr 1
      rw [List.map_append, List.sum_append]
      simp only [List.map_cons, List.map_nil, List.sum_cons, List.sum_nil]
      omega
    rw [schedLoop_cons]
    by_cases h : mw ≤ out.length
    · rw [if_pos h]
      cases out with
      | nil =>
        rw [hsubmit]
        congr 1
        simp only [List.map_cons, List.sum_cons]
        omega
      | cons c rest =>
        have hlen : 0 < (c :: rest).length := by simp
        have hi : sched.headD 0 % (c :: rest).length < (c :: rest).length :=
          Nat.mod_lt _ hlen
        have hmem := getD_mem_self [] (c :: rest) _ hi
        have hpb : process_batch parse
            ((c :: rest).getD (sched.headD 0 % (c :: rest).length) []) =
            some ((c :: rest).getD (sched.headD 0 % (c :: rest).length) []).length := by
          unfold process_batch
          rw [if_pos (hout _ hmem)]
        rw [hpb]
        simp only []
        have hsum := sum_len_eraseIdx (c :: rest) _ hi
        rw [schedLoop_result_of_all parse mw bs sched.tail
          ((c :: rest).eraseIdx (sched.headD 0 % (c :: rest).length) ++ [b])
          (total + ((c :: rest).getD (sched.headD 0 % (c :: rest).length) []).length)
          (by
            intro x hx
            rcases List.mem_append.mp hx with hx2 | hx2
            · exact hout x (mem_of_mem_eraseIdx' _ _ x hx2)
            · rw [List.mem_singleton.mp hx2]; exact hb)
          hbs2]
        congr 1
        rw [List.map_append, List.sum_append]
        simp only [List.map_cons, List.map_nil, List.sum_cons, List.sum_nil]
        simp only [List.map_cons, List.sum_cons] at hsum
        omega
    · rw [if_neg h]
      rw [hsubmit]
      congr 1
      simp only [List.map_cons, List.sum_cons]
      omega

/-- If any batch anywhere in the run fails to parse, the scheduler loop ends
with a raised exception: its result is `none`, for any completion schedule. -/
lemma schedLoop_result_none_of_mem (parse : Line → Bool) (mw : Nat) :
    ∀ (bs : List Batch) (sched : List Nat) (out : List Batch) (total : Nat) (x : Batch),
      x ∈ out ∨ x ∈ bs → process_batch_loop parse x = false →
      (schedLoop parse mw sched out total bs).result = none
  | [], sched, out, total, x, hx, hfail => by
    rcases hx with hx | hx
    · rw [schedLoop_nil]
      exact drainLoop_result_none_of_mem parse out.length out sched total x le_rfl hx hfail
    · exact absurd hx (by simp)
  | b :: bs, sched, out, total, x, hx, hfail => by
    have hnext : ∀ out2 : List Batch,
        (x ∈ out → x ∈ out2) → (x = b → x ∈ out2) →
        (x ∈ out2 ∨ x ∈ bs) := by
      intro out2 h1 h2
      rcases hx with hx2 | hx2
      · exact Or.inl (h1 hx2)
      · rcases List.mem_cons.mp hx2 with rfl | hmem
        · exact Or.inl (h2 rfl)
        · exact Or.inr hmem
    rw [schedLoop_cons]
    by_cases h : mw ≤ out.length
    · rw [if_pos h]
      cases out with
      | nil =>
        rw [schedLoop_result_none_of_mem parse mw bs sched ([] ++ [b]) total x
          (hnext _ (by intro hc; exact absurd hc (by simp)) (by rintro rfl; simp)) hfail]
      | cons c rest =>
        have hlen : 0 < (c :: rest).length := by simp
        have hi : sched.headD 0 % (c :: rest).length < (c :: rest).length :=
          Nat.mod_lt _ hlen
        rcases hpl : process_batch_loop parse
            ((c :: rest).getD (sched.headD 0 % (c :: rest).length) []) with _ | _
        · rw [show process_batch parse
              ((c :: rest).getD (sched.headD 0 % (c :: rest).length) []) = none by
            unfold process_batch
            rw [if_neg (by rw [hpl]; exact Bool.false_ne_true)]]
        · have hne : x ≠ (c :: rest).getD (sched.headD 0 % (c :: rest).length) [] := by
            intro hfe
            rw [hfe, hpl] at hfail
            simp at hfail
          rw [show process_batch parse
              ((c :: rest).getD (sched.headD 0 % (c :: rest).length) []) =
              some ((c :: rest).getD (sched.headD 0 % (c :: rest).length) []).length by
            unfold process_batch
            rw [if_pos hpl]]
          simp only []
          rw [schedLoop_result_none_of_mem parse mw bs sched.tail
            ((c :: rest).eraseIdx (sched.headD 0 % (c :: rest).length) ++ [b])
            (total + ((c :: rest).getD (sched.headD 0 % (c :: rest).length) []).length) x
            (hnext _
              (fun hc => List.mem_append.mpr
                (Or.inl (mem_eraseIdx_of_ne [] (c :: rest) _ x hc hne)))
              (by rintro rfl; simp)) hfail]
    · rw [if_neg h]
      rw [schedLoop_result_none_of_mem parse mw bs sched (out ++ [b]) total x
        (hnext _ (fun hc => List.mem_append.mpr (Or.inl hc)) (by rintro rfl; simp)) hfail]

/-- With a positive worker budget `mw` and at most `mw` outstanding tasks at
entry, every outstanding-set size sampled by the scheduler loop stays at most
`mw`: one completed task is harvested before each submission that would
otherwise exceed the budget. -/
lemma schedLoop_trace_le (parse : Line → Bool) (mw : Nat) (hmw : 1 ≤ mw) :
    ∀ (bs : List Batch) (sched : List Nat) (out : List Batch) (total : Nat),
      out.length ≤ mw →
      ∀ n ∈ (schedLoop parse mw sched out total bs).trace, n ≤ mw
  | [], sched, out, total, hout, n, hn => by
    rw [schedLoop_nil] at hn
    exact le_trans (le_of_lt (drainLoop_trace_lt parse out.length out sched total n hn)) hout
  | b :: bs, sched, out, total, hout, n, hn => by
    rw [schedLoop_cons] at hn
    by_cases h : mw ≤ out.length
    · rw [if_pos h] at hn
      cases out with
      | nil => exact absurd (le_trans hmw h) (by simp)
      | cons c rest =>
        have hlen : 0 < (c :: rest).length := by simp
        have hi : sched.headD 0 % (c :: rest).length < (c :: rest).length :=
          Nat.mod_lt _ hlen
        have herase := length_eraseIdx_succ (c :: rest) _ hi
        rcases hpl : process_batch_loop parse
            ((c :: rest).getD (sched.headD 0 % (c :: rest).length) []) with _ | _
        · rw [show process_batch parse
              ((c :: rest).getD (sched.headD 0 % (c :: rest).length) []) = none by
            unfold process_batch
            rw [if_neg (by rw [hpl]; exact Bool.false_ne_true)]] at hn
          simp only [List.mem_singleton] at hn
          omega
        · rw [show process_batch parse
              ((c :: rest).getD (sched.headD 0 % (c :: rest).length) []) =
              some ((c :: rest).getD (sched.headD 0 % (c :: rest).length) []).length by
            unfold process_batch
            rw [if_pos hpl]] at hn
          simp only [List.mem_cons] at hn
          have hlen2 : ((c :: rest).eraseIdx (sched.headD 0 % (c :: rest).length)
              ++ [b]).length ≤ mw := by
            rw [List.length_append, List.length_singleton]
            omega
          rcases hn with rfl | hn
          · omega
          · rcases hn with rfl | hn
            · exact hlen2
            · exact schedLoop_trace_le parse mw hmw bs sched.tail _ _ hlen2 n hn
    · rw [if_neg h] at hn
      have hlen2 : (out ++ [b]).length ≤ mw := by
        rw [List.length_append, List.length_singleton]
        omega
      simp only [List.mem_cons] at hn
      rcases hn with rfl | hn
      · exact hlen2
      · exact schedLoop_trace_le parse mw hmw bs sched (out ++ [b]) total hlen2 n hn

/-! ### Lemmas about `main` of both scripts -/

/-- With a 200 response, `stream_and_process` prints nothing and yields the
batches of the stripped lines. -/
lemma stream_and_process_ok (bsz : Int) (raw : List Line) :
    stream_and_process 200 bsz raw = ([], batcher_loop bsz [] (raw.map strip)) := by
  unfold stream_and_process
  rw [if_neg (by simp)]

/-- With a non-200 response, `stream_and_process` prints the diagnostic and
yields nothing. -/
lemma stream_and_process_bad (status : Nat) (hs : status ≠ 200) (bsz : Int)
    (raw : List Line) :
    stream_and_process status bsz raw = ([Event.transportError status], []) := by
  unfold stream_and_process
  rw [if_pos hs]

/-- When every line of the response parses, the parallel `main` prints exactly
the summary carrying the number of lines of the stream. -/
lemma parallel_main_success (parse : Line → Bool) (token : Line) (htok : token ≠ [])
    (raw : List Line) (sched : List Nat)
    (hparse : ∀ l ∈ raw, parse (strip l) = true) :
    parallel_main parse token 200 raw sched = [Event.summary raw.length] := by
  have hall : ∀ b ∈ batcher_loop default_batch_size [] (raw.map strip),
      process_batch_loop parse b = true := by
    intro b hb
    rw [process_batch_loop_eq_true_iff]
    intro l hl
    have hjoin : l ∈ (batcher_loop default_batch_size [] (raw.map strip)).flatten :=
      List.mem_flatten.mpr ⟨b, hb, hl⟩
    rw [batcher_loop_flatten] at hjoin
    simp only [List.nil_append] at hjoin
    rcases List.mem_map.mp hjoin with ⟨l0, hl0, rfl⟩
    exact hparse l0 hl0
  have hsum : ((batcher_loop default_batch_size [] (raw.map strip)).map
      List.length).sum = raw.length := by
    have hlenj := congrArg List.length
      (batcher_loop_flatten default_batch_size (raw.map strip) [])
    rw [List.length_flatten] at hlenj
    simpa using hlenj
  have hres := schedLoop_result_of_all parse max_workers
    (batcher_loop default_batch_size [] (raw.map strip)) sched [] 0 (by simp) hall
  unfold parallel_main
  rw [if_neg htok]
  simp only [stream_and_process_ok]
  rw [hres]
  simp [hsum]

/-- On a non-200 response the parallel `main` prints the transport diagnostic
and then still prints the summary with a zero total. -/
lemma parallel_main_transport (parse : Line → Bool) (token : Line)
    (htok : token ≠ []) (status : Nat) (hs : status ≠ 200) (raw : List Line)
    (sched : List Nat) :
    parallel_main parse token status raw sched =
      [Event.transportError status, Event.summary 0] := by
  unfold parallel_main
  rw [if_neg htok]
  simp only [stream_and_process_bad status hs]
  rfl

/-- On a non-200 response the serial `main` prints the transport diagnostic
and then still prints the summary with a zero total. -/
lemma serial_main_transport (parse : Line → Bool) (token : Line)
    (htok : token ≠ []) (status : Nat) (hs : status ≠ 200) (raw : List Line) :
    serial_main parse token status raw =
      [Event.transportError status, Event.summary 0] := by
  unfold serial_main
  rw [if_neg htok, if_neg hs]

/-- A failing line makes the serial `main` crash: the `process_line`
exception propagates and no summary is printed. -/
lemma serial_main_crash (parse : Line → Bool) (token : Line) (htok : token ≠ [])
    (raw : List Line) (x : Line) (hx : x ∈ raw.map strip) (hfx : parse x = false) :
    serial_main parse token 200 raw = [Event.crash] := by
  unfold serial_main
  rw [if_neg htok, if_pos rfl]
  rw [serial_loop_eq_none_of_mem parse _ x hx hfx]

/-- A failing batch makes the parallel `main` crash: the exception re-raised
by `future.result()` propagates and no summary is printed. -/
lemma parallel_main_crash (parse : Line → Bool) (token : Line) (htok : token ≠ [])
    (raw : List Line) (sched : List Nat) (b : Batch)
    (hb : b ∈ (stream_and_process 200 default_batch_size raw).2)
    (hfail : process_batch parse b = none) :
    parallel_main parse token 200 raw sched = [Event.crash] := by
  have hloop : process_batch_loop parse b = false :=
    (process_batch_eq_none_iff parse b).mp hfail
  rw [stream_and_process_ok] at hb
  have hres := schedLoop_result_none_of_mem parse max_workers
    (batcher_loop default_batch_size [] (raw.map strip)) sched [] 0 b
    (Or.inr hb) hloop
  unfold parallel_main
  rw [if_neg htok]
  simp only [stream_and_process_ok]
  rw [hres]
  rfl

/-! ### The claims -/

/-- Claim C1: for every finite input stream whose lines all parse as JSON, the
parallel pipeline's final Running Total (the `total_lines_processed` printed
by `main`) equals the number of lines in the stream, for every completion
schedule: every batch yielded by `stream_and_process` is submitted exactly
once, every submitted task's result is harvested and added exactly once, and
each result is its batch's length. -/
theorem C1_parallel_running_total (raw : List Line) (sched : List Nat)
    (token : Line) (htok : token ≠ [])
    (hparse : ∀ l ∈ raw, JsonModel.json_valid (strip l) = true) :
    parallel_main JsonModel.json_valid token 200 raw sched =
      [Event.summary raw.length] :=
  parallel_main_success JsonModel.json_valid token htok raw sched hparse

/-- Witness for C1 at a concrete two-line stream of valid JSON. -/
theorem C1_parallel_running_total_witness :
    tok ≠ [] ∧ (∀ l ∈ [lineA, lineB], JsonModel.json_valid (strip l) = true) ∧
      parallel_main JsonModel.json_valid tok 200 [lineA, lineB] [0] =
        [Event.summary 2] :=
  ⟨by decide, by decide,
    C1_parallel_running_total [lineA, lineB] [0] tok (by decide) (by decide)⟩

/-- Claim C2: for every `batch_size > 0` and every finite line sequence, the
concatenation of the yielded batches is the input sequence in order, no batch
is empty, every batch except possibly the last has exactly `batch_size`
lines, an empty stream yields no batch, and a stream of exactly `batch_size`
lines yields exactly one full batch; `stream_and_process` applies this
batching to the decoded, stripped lines of a 200 response. -/
theorem C2_batcher_partition (bsz : Int) (hbs : 0 < bsz) (lines raw : List Line) :
    (batcher_loop bsz [] lines).flatten = lines
    ∧ (∀ b ∈ batcher_loop bsz [] lines, b ≠ [])
    ∧ (∀ b ∈ (batcher_loop bsz [] lines).dropLast, (b.length : Int) = bsz)
    ∧ (∀ b ∈ batcher_loop bsz [] lines, (b.length : Int) ≤ bsz)
    ∧ (lines = [] → batcher_loop bsz [] lines = [])
    ∧ ((lines.length : Int) = bsz → batcher_loop bsz [] lines = [lines])
    ∧ ((stream_and_process 200 bsz raw).2).flatten = raw.map strip := by
  refine ⟨by simpa using batcher_loop_flatten bsz lines [],
    batcher_loop_ne_nil bsz lines [],
    (batcher_loop_sizes bsz lines [] (by simpa using hbs)).1,
    (batcher_loop_sizes bsz lines [] (by simpa using hbs)).2,
    ?_, ?_, ?_⟩
  · rintro rfl; rfl
  · intro hlen
    have hne : lines ≠ [] := by
      intro h0
      rw [h0] at hlen
      simp at hlen
      omega
    simpa using batcher_loop_exact bsz lines [] hne (by simpa using hlen)
  · rw [stream_and_process_ok]
    simpa using batcher_loop_flatten bsz (raw.map strip) []

/-- Witness for C2 at `batch_size = 2` and a three-line stream. -/
theorem C2_batcher_partition_witness :
    (0 : Int) < 2 ∧
      (batcher_loop 2 [] [lineA, lineB, lineA]).flatten = [lineA, lineB, lineA] :=
  ⟨by decide, (C2_batcher_partition 2 (by decide) [lineA, lineB, lineA] []).1⟩

/-- Claim C3: at every sampled point of a parallel run the outstanding-task
set of the scheduler loop has at most `max_workers` (4) members: before each
submission, if the set already has `max_workers` members, exactly one
completed task is harvested and removed first. -/
theorem C3_outstanding_bounded (parse : Line → Bool) (sched : List Nat)
    (batches : List Batch) (n : Nat)
    (hn : n ∈ (schedLoop parse max_workers sched [] 0 batches).trace) :
    n ≤ max_workers :=
  schedLoop_trace_le parse max_workers (by decide) batches sched [] 0 (by simp) n hn

/-- Witness for C3: a run over one batch samples an outstanding size of 1. -/
theorem C3_outstanding_bounded_witness :
    1 ∈ (schedLoop JsonModel.json_valid max_workers [] [] 0 [[lineA]]).trace ∧
      1 ≤ max_workers :=
  ⟨by decide, C3_outstanding_bounded JsonModel.json_valid [] [[lineA]] 1 (by decide)⟩

/-- Claim C4: `process_batch` returns the batch length iff every line parses;
on the first unparseable line it raises without attempting any remaining line
(the attempted lines are exactly the batch's longest parsing initial segment
plus the failing line), so the whole batch fails; likewise a parse failure in
`process_line` aborts the serial loop. -/
theorem C4_fail_fast (parse : Line → Bool) (b : Batch) (ls : List Line) :
    (process_batch parse b = some b.length ↔ ∀ l ∈ b, parse l = true)
    ∧ ((∀ l ∈ b, parse l = true) → process_batch_attempts parse b = b)
    ∧ ((∃ l ∈ b, parse l = false) →
        process_batch parse b = none ∧
        process_batch_attempts parse b = b.take ((b.takeWhile parse).length + 1))
    ∧ ((∃ l ∈ ls, parse l = false) → serial_loop parse ls = none) := by
  refine ⟨⟨?_, ?_⟩, process_batch_attempts_of_all parse b, ?_, ?_⟩
  · intro h
    rw [← process_batch_loop_eq_true_iff]
    rcases hl : process_batch_loop parse b with _ | _
    · unfold process_batch at h
      rw [hl] at h
      simp at h
    · rfl
  · intro h
    unfold process_batch
    rw [if_pos ((process_batch_loop_eq_true_iff parse b).mpr h)]
  · rintro ⟨x, hx, hfx⟩
    refine ⟨?_, process_batch_attempts_of_fail parse b ⟨x, hx, hfx⟩⟩
    rw [process_batch_eq_none_iff]
    exact process_batch_loop_eq_false_of_mem parse b x hx hfx
  · rintro ⟨x, hx, hfx⟩
    exact serial_loop_eq_none_of_mem parse ls x hx hfx

/-- Witness for C4: a malformed middle line fails the batch, only the lines
up to it are attempted, and it aborts the serial loop. -/
theorem C4_fail_fast_witness :
    process_batch JsonModel.json_valid [lineA, lineBad, lineB] = none ∧
      process_batch_attempts JsonModel.json_valid [lineA, lineBad, lineB] =
        [lineA, lineBad] ∧
      serial_loop JsonModel.json_valid [lineBad] = none := by
  have h := C4_fail_fast JsonModel.json_valid [lineA, lineBad, lineB] [lineBad]
  have h2 := h.2.2.1 ⟨lineBad, by decide, by decide⟩
  exact ⟨h2.1, h2.2.trans (by decide), h.2.2.2 ⟨lineBad, by decide, by decide⟩⟩

/-- Claim C5: a failing worker task is observed by the coordinator at the
harvest point — `future.result()` re-raises — so the scheduler loop's result
is an exception for every completion schedule: the Running Total is never
reported, no lines of the failed batch are counted, and remaining aggregation
is aborted rather than continued or retried. -/
theorem C5_worker_failure_aborts (parse : Line → Bool) (token : Line)
    (htok : token ≠ []) (raw : List Line) (sched : List Nat) (b : Batch)
    (hb : b ∈ (stream_and_process 200 default_batch_size raw).2)
    (hfail : process_batch parse b = none) :
    (schedLoop parse max_workers sched [] 0
        (stream_and_process 200 default_batch_size raw).2).result = none
    ∧ parallel_main parse token 200 raw sched = [Event.crash] :=
  ⟨schedLoop_result_none_of_mem parse max_workers _ sched [] 0 b (Or.inr hb)
      ((process_batch_eq_none_iff parse b).mp hfail),
    parallel_main_crash parse token htok raw sched b hb hfail⟩

/-- Witness for C5 at a one-batch stream whose only line is malformed. -/
theorem C5_worker_failure_aborts_witness :
    parallel_main JsonModel.json_valid tok 200 [lineBad] [] = [Event.crash] :=
  (C5_worker_failure_aborts JsonModel.json_valid tok (by decide) [lineBad] []
    [lineBad] (by decide) (by decide)).2

/-- Claim C6: a non-200 status makes `stream_and_process` print a diagnostic
carrying the status code and yield no batch, so no processing of the body
occurs and the Running Total stays 0 in both parallel and serial modes. -/
theorem C6_transport_error (parse : Line → Bool) (token : Line) (htok : token ≠ [])
    (status : Nat) (hs : status ≠ 200) (bsz : Int) (raw : List Line)
    (sched : List Nat) :
    stream_and_process status bsz raw = ([Event.transportError status], [])
    ∧ parallel_main parse token status raw sched =
        [Event.transportError status, Event.summary 0]
    ∧ serial_main parse token status raw =
        [Event.transportError status, Event.summary 0] :=
  ⟨stream_and_process_bad status hs bsz raw,
    parallel_main_transport parse token htok status hs raw sched,
    serial_main_transport parse token htok status hs raw⟩

/-- Witness for C6 at status 503. -/
theorem C6_transport_error_witness :
    stream_and_process 503 default_batch_size [] = ([Event.transportError 503], []) ∧
      parallel_main JsonModel.json_valid tok 503 [] [] =
        [Event.transportError 503, Event.summary 0] := by
  have h := C6_transport_error JsonModel.json_valid tok (by decide) 503 (by decide)
    default_batch_size [] []
  exact ⟨h.1, h.2.1⟩

/-- Claim C7 counterexample: on a transport failure (status 503) the serial
run prints the transport diagnostic and then still prints the final
elapsed-time/total-lines summary (with total 0), so a failing run is not
"a single diagnostic line followed by early termination". -/
theorem C7_counterexample_transport_summary :
    Event.summary 0 ∈ serial_main JsonModel.json_valid tok 503 [] := by decide

/-- Claim C7 as amended: a configuration error prints a single diagnostic and
terminates early with no summary; a parse error crashes the run with no
summary; but a transport error prints its diagnostic and then still prints
the elapsed-time/total-lines summary with total 0, in both modes. -/
theorem C7_amended_error_reporting (parse : Line → Bool) (token : Line)
    (status : Nat) (raw : List Line) (sched : List Nat) :
    (token = [] → parallel_main parse token status raw sched = [Event.tokenError]
      ∧ serial_main parse token status raw = [Event.tokenError])
    ∧ (token ≠ [] → status ≠ 200 →
        parallel_main parse token status raw sched =
          [Event.transportError status, Event.summary 0]
        ∧ serial_main parse token status raw =
          [Event.transportError status, Event.summary 0])
    ∧ (token ≠ [] → (∃ l ∈ raw.map strip, parse l = false) →
        serial_main parse token 200 raw = [Event.crash])
    ∧ (token ≠ [] → ∀ b ∈ (stream_and_process 200 default_batch_size raw).2,
        process_batch parse b = none →
        parallel_main parse token 200 raw sched = [Event.crash]) := by
  refine ⟨?_, ?_, ?_, ?_⟩
  · intro h
    constructor
    · unfold parallel_main
      rw [if_pos h]
    · unfold serial_main
      rw [if_pos h]
  · intro ht hs
    exact ⟨parallel_main_transport parse token ht status hs raw sched,
      serial_main_transport parse token ht status hs raw⟩
  · rintro ht ⟨x, hx, hfx⟩
    exact serial_main_crash parse token ht raw x hx hfx
  · intro ht b hb hfail
    exact parallel_main_crash parse token ht raw sched b hb hfail

/-- Witness for the amended C7: the transport-error case at status 503. -/
theorem C7_amended_error_reporting_witness :
    parallel_main JsonModel.json_valid tok 503 [] [] =
        [Event.transportError 503, Event.summary 0] ∧
      serial_main JsonModel.json_valid tok 503 [] =
        [Event.transportError 503, Event.summary 0] :=
  (C7_amended_error_reporting JsonModel.json_valid tok 503 [] []).2.1
    (by decide) (by decide)

/-- Claim C8: the parallel pipeline is deterministic in its result — two runs
over the same static line sequence (all parsing) print the same final Running
Total whatever the order in which batches complete, because each harvested
result is a batch length and addition is commutative. -/
theorem C8_schedule_independence (parse : Line → Bool) (token : Line)
    (htok : token ≠ []) (raw : List Line)
    (hparse : ∀ l ∈ raw, parse (strip l) = true) (sched1 sched2 : List Nat) :
    parallel_main parse token 200 raw sched1 =
      parallel_main parse token 200 raw sched2 := by
  rw [parallel_main_success parse token htok raw sched1 hparse,
    parallel_main_success parse token htok raw sched2 hparse]

/-- Witness for C8 with two opposite completion schedules. -/
theorem C8_schedule_independence_witness :
    parallel_main JsonModel.json_valid tok 200 [lineA, lineB] [0, 1] =
      parallel_main JsonModel.json_valid tok 200 [lineA, lineB] [1, 0] :=
  C8_schedule_independence JsonModel.json_valid tok (by decide) [lineA, lineB]
    (by decide) [0, 1] [1, 0]

/-- Claim C9: an empty or whitespace-only stream line is not skipped — after
decoding and stripping it becomes the empty string, which fails JSON parsing,
so it enters its batch and fails that batch in parallel mode, and fails the
run in serial mode. -/
theorem C9_whitespace_line_fails (w : Line) (hw : ∀ c ∈ w, isPyWs c = true) :
    strip w = []
    ∧ JsonModel.json_valid (strip w) = false
    ∧ (∀ (bsz : Int) (raw : List Line), w ∈ raw →
        ([] : Line) ∈ (batcher_loop bsz [] (raw.map strip)).flatten)
    ∧ (∀ b : Batch, ([] : Line) ∈ b → process_batch JsonModel.json_valid b = none)
    ∧ (∀ ls : List Line, ([] : Line) ∈ ls →
        serial_loop JsonModel.json_valid ls = none) := by
  have hstrip := strip_eq_nil_of_all_ws w hw
  refine ⟨hstrip, by rw [hstrip]; rfl, ?_, ?_, ?_⟩
  · intro bsz raw hraw
    rw [batcher_loop_flatten bsz (raw.map strip) []]
    simp only [List.nil_append]
    exact List.mem_map.mpr ⟨w, hraw, hstrip⟩
  · intro b hb
    rw [process_batch_eq_none_iff]
    exact process_batch_loop_eq_false_of_mem JsonModel.json_valid b [] hb rfl
  · intro ls hls
    exact serial_loop_eq_none_of_mem JsonModel.json_valid ls [] hls rfl

/-- Witness for C9 at a line of one space and one tab. -/
theorem C9_whitespace_line_fails_witness :
    strip [' ', '\t'] = [] ∧
      process_batch JsonModel.json_valid [([] : Line), lineA] = none := by
  have h := C9_whitespace_line_fails [' ', '\t'] (by decide)
  exact ⟨h.1, h.2.2.2.1 [([] : Line), lineA] (by decide)⟩

/-- Claim C10: called with `batch_size ≤ 0`, the batcher still terminates and
loses no lines, and every yielded batch has exactly one line, because the
emission test `len(batch) >= batch_size` fires after every append. -/
theorem C10_nonpositive_batch_size (bsz : Int) (hbs : bsz ≤ 0) (lines : List Line) :
    (batcher_loop bsz [] lines).flatten = lines
    ∧ ∀ b ∈ batcher_loop bsz [] lines, b.length = 1 := by
  refine ⟨by simpa using batcher_loop_flatten bsz lines [], ?_⟩
  rw [batcher_loop_nonpos bsz hbs lines]
  intro b hb
  rcases List.mem_map.mp hb with ⟨l, _, rfl⟩
  rfl

/-- Witness for C10 at `batch_size = -1`. -/
theorem C10_nonpositive_batch_size_witness :
    (-1 : Int) ≤ 0 ∧
      (batcher_loop (-1) [] [lineA, lineB]).flatten = [lineA, lineB] :=
  ⟨by decide, (C10_nonpositive_batch_size (-1) (by decide) [lineA, lineB]).1⟩

end FeedTools

